import Mathlib

/-!
Verification of the layered shortest-path engine and its reference-counted
persistent list.

Part 1 is a functional embedding of the dynamic program in
src/shortestpath.cpp (function cheapest_paths): path-state arrays are Lean
lists of paths, and a path is a list of VertexState records (front node =
current frontier vertex). The C++ weight type double is modelled by a
type parameter W carrying addition, zero and a linear order: the engine
only ever adds weights and compares them, so every statement below holds
for any such weight type (the rationals and the reals included); concrete
witnesses instantiate W with the integers.

Part 2 (further below) is a heap embedding of the reference-counted
LispyList: nodes live in an addressed store, each node carrying its value,
reference count and next pointer, and the destructor's iterative cleanup
loop is modelled with explicit fuel.
-/

section Engine

variable {W : Type} [AddZeroClass W] [LinearOrder W]

/-- Mirrors struct VertexState: the accumulated weight and the vertex id. -/
structure VertexState (W : Type) where
  least_total_weight_to_here : W
  vertex : Nat
deriving DecidableEq

/-- Mirrors struct Edge. The C++ field names from and to are Lean keywords,
hence frm and toV. -/
structure Edge (W : Type) where
  frm : Nat
  toV : Nat
  weight : W
deriving DecidableEq

/-- A path as stored in a path-state array slot: the LispyList of
VertexState, front node first. The empty list is the nil sentinel. -/
abbrev PathL (W : Type) := List (VertexState W)

/-- Weight stored at the front node of a path; 0 for the empty path (the
empty case is never consulted by the algorithm: emptiness is tested first). -/
def headWeight : PathL W → W
  | [] => 0
  | v :: _ => v.least_total_weight_to_here

/-- The lazy seeding of previous_layer (src/shortestpath.cpp lines 59-65):
if the slot at the edge source is still nil, plant a weight-zero
single-node path at the source vertex. -/
def seedPrev (prev : List (PathL W)) (e : Edge W) : List (PathL W) :=
  if prev.getD e.frm [] = [] then prev.set e.frm [⟨0, e.frm⟩] else prev

/-- The candidate total of the relaxation: weight at the (seeded) source
head plus the edge weight (src/shortestpath.cpp line 67). -/
def proposedTotal (prev : List (PathL W)) (e : Edge W) : W :=
  headWeight ((seedPrev prev e).getD e.frm []) + e.weight

/-- One relaxation step of cheapest_paths (the body of the edge loop,
src/shortestpath.cpp lines 57-75): lazily seed previous_layer at the edge
source, then update current_layer at the edge target when the slot is empty
or the proposed total strictly beats the stored head weight. -/
def relax (prev cur : List (PathL W)) (e : Edge W) : List (PathL W) × List (PathL W) :=
  let prev1 := seedPrev prev e
  let p := prev1.getD e.frm []
  let proposed := headWeight p + e.weight
  let c := cur.getD e.toV []
  if c = [] ∨ headWeight c > proposed then
    (prev1, cur.set e.toV (⟨proposed, e.toV⟩ :: p))
  else
    (prev1, cur)

/-- Fold-ready form of relax over the pair of path-state arrays. -/
def relaxStep (st : List (PathL W) × List (PathL W)) (e : Edge W) :
    List (PathL W) × List (PathL W) :=
  relax st.1 st.2 e

/-- Mirrors std::vector resize with value-initialized (empty) new slots. -/
def resizeTo (l : List (PathL W)) (n : Nat) : List (PathL W) :=
  l.take n ++ List.replicate (n - l.length) []

/-- Vertex-space size deduced from the edges: max over source ids, plus one
(the C++ starts from max_previous_vertex = -1 and resizes to max + 1). -/
def prevCount (edges : List (Edge W)) : Nat :=
  edges.foldl (fun m e => max m (e.frm + 1)) 0

/-- Vertex-space size of the current layer, deduced from the target ids. -/
def curCount (edges : List (Edge W)) : Nat :=
  edges.foldl (fun m e => max m (e.toV + 1)) 0

/-- Processing of one layer: resize previous_layer, clear-and-resize
current_layer, run every edge through relax, and hand the current array
on (the C++ swap makes it the next previous_layer). -/
def processLayer (previous : List (PathL W)) (edges : List (Edge W)) : List (PathL W) :=
  (edges.foldl relaxStep
    (resizeTo previous (prevCount edges),
     List.replicate (curCount edges) ([] : PathL W))).2

/-- The layer loop of cheapest_paths: previous_layer starts empty. -/
def runLayers (layers : List (List (Edge W))) : List (PathL W) :=
  layers.foldl processLayer []

/-- Mirrors the ByTotalWeight comparator: empty lists sort last, otherwise
order by front weight ascending. -/
def byTotalWeight (left right : PathL W) : Bool :=
  if left = [] then false
  else if right = [] then true
  else decide (headWeight left < headWeight right)

/-- The non-strict order induced by the comparator, used to state
sortedness: left precedes-or-ties right when the comparator does not put
right strictly before left. -/
def pathLe (a b : PathL W) : Prop := byTotalWeight b a = false

instance : DecidableRel (pathLe (W := W)) := fun a b => by
  unfold pathLe; infer_instance

instance : IsTotal (PathL W) pathLe := by
  constructor
  intro a b
  unfold pathLe byTotalWeight
  by_cases hb : b = []
  · refine Or.inl ?_
    rw [if_pos hb]
  · by_cases ha : a = []
    · refine Or.inr ?_
      rw [if_pos ha]
    · rcases le_total (headWeight b) (headWeight a) with h | h
      · refine Or.inr ?_
        rw [if_neg ha, if_neg hb, decide_eq_false_iff_not, not_lt]
        exact h
      · refine Or.inl ?_
        rw [if_neg hb, if_neg ha, decide_eq_false_iff_not, not_lt]
        exact h

instance : IsTrans (PathL W) pathLe := by
  constructor
  intro a b c hab hbc
  unfold pathLe byTotalWeight at hab hbc ⊢
  by_cases hc : c = []
  · rw [if_pos hc]
  · rw [if_neg hc] at hbc ⊢
    by_cases hb : b = []
    · rw [if_pos hb] at hbc
      exact absurd hbc (by simp)
    · rw [if_neg hb] at hab hbc
      by_cases ha : a = []
      · rw [if_pos ha] at hab
        exact absurd hab (by simp)
      · rw [if_neg ha] at hab ⊢
        rw [decide_eq_false_iff_not, not_lt] at hab hbc ⊢
        exact le_trans hab hbc

/-- Final extraction (src/shortestpath.cpp lines 99-110): sort by the
comparator, fail if there is no reachable vertex (the asserts), and keep
the prefix tied with the least front weight. -/
def finalize (previous : List (PathL W)) : Option (List (PathL W)) :=
  match List.insertionSort pathLe previous with
  | [] => none
  | [] :: _ => none
  | (v :: p) :: rest =>
    some (((v :: p) :: rest).takeWhile
      (fun l => decide (l ≠ []) &&
        decide (headWeight l = v.least_total_weight_to_here)))

/-- The slot-index and front-vertex agreement invariant of a path-state
array: any nonempty slot holds a path whose front node names exactly the
slot's vertex. -/
def Aligned (l : List (PathL W)) : Prop :=
  ∀ v (x : VertexState W) rest, l.getD v [] = x :: rest → x.vertex = v

/-- The whole engine: run the layers, then extract the minimal paths.
A none result models the assertion failure (NoReachableVertex). -/
def cheapest_paths (layers : List (List (Edge W))) : Option (List (PathL W)) :=
  finalize (runLayers layers)

end Engine

/-!
Part 2: heap embedding of LispyList (src/shortestpath.cpp lines 433-699).
A node owns a value, a reference count and a next pointer; a LispyList
value is a nullable pointer (Option Nat) into an addressed store. Nodes
are only ever allocated by prepend, at the end of the store, so a node's
next pointer always addresses an older (strictly smaller) slot.
-/

/-- Mirrors struct LispyListNode: value, refcount, and const next pointer.
The C++ refcount is an int, kept here as an Int so that the decrement in
cleanup has the source's semantics. -/
structure LNode (V : Type) where
  value : V
  refcount : Int
  next : Option Nat
deriving DecidableEq

/-- The store of nodes: slot p holds some node (allocated) or none (freed
or never allocated). The address space only grows; delete just clears a
slot. -/
structure LHeap (V : Type) where
  store : List (Option (LNode V))
deriving DecidableEq

/-- Number of slots ever allocated. -/
def LHeap.size (h : LHeap V) : Nat := h.store.length

/-- Dereference a slot; none when out of range or freed. -/
def LHeap.read (h : LHeap V) (p : Nat) : Option (LNode V) :=
  h.store.getD p none

/-- Overwrite a slot (no-op when out of range, which never happens for
valid pointers). -/
def LHeap.write (h : LHeap V) (p : Nat) (s : Option (LNode V)) : LHeap V :=
  ⟨h.store.set p s⟩

/-- Allocate a fresh node at the end of the store, returning its address;
models new LispyListNode. -/
def LHeap.alloc (h : LHeap V) (nd : LNode V) : LHeap V × Nat :=
  (⟨h.store ++ [some nd]⟩, h.store.length)

/-- Mirrors LispyList::cleanup (lines 540-548): walk the chain, decrement
each reference count, delete the node and continue while the count hits
zero, stop at the first node still referenced elsewhere. The C++ while
loop is modelled with fuel; a none result signals an operation the source
could never justify (decrementing through a freed slot, or fuel
exhaustion, neither of which happens on well-formed heaps). -/
def cleanupAux (h : LHeap V) : Option Nat → Nat → Option (LHeap V)
  | none, _ => some h
  | some _, 0 => none
  | some p, fuel + 1 =>
    match h.read p with
    | none => none
    | some nd =>
      if nd.refcount - 1 = 0 then cleanupAux (h.write p none) nd.next fuel
      else some (h.write p (some ⟨nd.value, nd.refcount - 1, nd.next⟩))

/-- cleanup with enough fuel for any chain inside the heap (next pointers
strictly descend, so a chain visits at most size slots). -/
def LHeap.cleanup (h : LHeap V) (l : Option Nat) : Option (LHeap V) :=
  cleanupAux h l (h.size + 1)

/-- Release a whole collection of lists, one cleanup each; models the
destruction of every LispyList handle in turn. -/
def releaseAll (h : LHeap V) : List (Option Nat) → Option (LHeap V)
  | [] => some h
  | r :: rs =>
    match h.cleanup r with
    | none => none
    | some h1 => releaseAll h1 rs

/-- The increment of one node's refcount: models ++node->refcount. -/
def LHeap.bumpAt (h : LHeap V) (p : Nat) : LHeap V :=
  match h.read p with
  | some nd => h.write p (some ⟨nd.value, nd.refcount + 1, nd.next⟩)
  | none => h

/-- The increment step shared by prepend, tail and the copy operations:
if the pointer is non-null, bump the addressed node's refcount. -/
def LHeap.bump (h : LHeap V) (l : Option Nat) : LHeap V :=
  match l with
  | none => h
  | some p => h.bumpAt p

/-- Mirrors LispyList::prepend (lines 623-634): bump the head's refcount
(if any), then allocate a fresh node whose next pointer is the old head. -/
def LHeap.prepend (h : LHeap V) (l : Option Nat) (v : V) : LHeap V × Option Nat :=
  let pr := (h.bump l).alloc ⟨v, 1, l⟩
  (pr.1, some pr.2)

/-- The error vocabulary of the spec for contract violations on the list. -/
inductive LispyError where
  | emptyListAccess
deriving DecidableEq

/-- Mirrors LispyList::head (lines 603-607): the assert on an empty list
is the EmptyListAccess failure. Dereferencing a freed slot is undefined
behaviour in the source and never happens on well-formed heaps; the model
maps it to the same error to stay total. -/
def LHeap.headE (h : LHeap V) (l : Option Nat) : Except LispyError V :=
  match l with
  | none => .error .emptyListAccess
  | some p =>
    match h.read p with
    | some nd => .ok nd.value
    | none => .error .emptyListAccess

/-- Mirrors LispyList::tail (lines 609-616): assert on empty, bump the
next node's refcount when present, and hand back the next pointer, which
shares the original storage. -/
def LHeap.tailE (h : LHeap V) (l : Option Nat) :
    Except LispyError (LHeap V × Option Nat) :=
  match l with
  | none => .error .emptyListAccess
  | some p =>
    match h.read p with
    | none => .error .emptyListAccess
    | some nd => .ok (h.bump nd.next, nd.next)

/-- Mirrors LispyList::empty (lines 618-621): the node pointer is null. -/
def LHeap.emptyB (l : Option Nat) : Bool := l.isNone

/-- Mirrors operator== (lines 646-654): identity of the node pointers,
never content comparison. -/
def lispyBEq (a b : Option Nat) : Bool := decide (a = b)

/-- Mirrors the move constructor (lines 568-572): the destination steals
the pointer, the source becomes null, the heap is untouched. Result is
(heap, destination, moved-from source). -/
def LHeap.moveCtorH (h : LHeap V) (src : Option Nat) :
    LHeap V × Option Nat × Option Nat :=
  (h, src, none)

/-- Mirrors move assignment (lines 592-601) for distinct handles: release
the destination's old chain with cleanup, then steal the pointer; the
transfer itself touches no reference count. Result is
(heap, destination, moved-from source). -/
def LHeap.moveAssign (h : LHeap V) (dst src : Option Nat) :
    Option (LHeap V × Option Nat × Option Nat) :=
  match h.cleanup dst with
  | none => none
  | some h1 => some (h1, src, none)

/-- The sequence of values along a list, front to back (the restartable
iteration of the list); fuel as in cleanup. -/
def listValuesAux (h : LHeap V) : Option Nat → Nat → List V
  | none, _ => []
  | some _, 0 => []
  | some p, fuel + 1 =>
    match h.read p with
    | none => []
    | some nd => nd.value :: listValuesAux h nd.next fuel

/-- Contents of a list in the heap. -/
def LHeap.listValues (h : LHeap V) (l : Option Nat) : List V :=
  listValuesAux h l h.size

/-- The predicate counted by pointersTo. -/
def nextHits (x : Nat) (s : Option (LNode V)) : Bool :=
  match s with
  | some nd => decide (nd.next = some x)
  | none => false

/-- Number of allocated nodes whose next pointer addresses p. -/
def LHeap.pointersTo (h : LHeap V) (p : Nat) : Nat :=
  h.store.countP (fun s =>
    match s with
    | some nd => decide (nd.next = some p)
    | none => false)

/-- Number of list handles among the roots that address p. -/
def rootsTo (roots : List (Option Nat)) (p : Nat) : Nat :=
  roots.countP (fun r => decide (r = some p))

/-- Well-formedness of one slot: an allocated node's refcount equals the
number of handles plus the number of next pointers addressing it, is at
least one, and its next pointer addresses an allocated, strictly older
slot. -/
def nodeOK (h : LHeap V) (roots : List (Option Nat)) (p : Nat) : Bool :=
  match h.read p with
  | none => true
  | some nd =>
    decide (nd.refcount = (rootsTo roots p + h.pointersTo p : Int)) &&
    decide (1 ≤ nd.refcount) &&
    (match nd.next with
     | none => true
     | some q => decide (q < p) && (h.read q).isSome)

/-- A root handle is either null or addresses an allocated slot. -/
def rootOK (h : LHeap V) (r : Option Nat) : Bool :=
  match r with
  | none => true
  | some p => (h.read p).isSome

/-- Well-formed heap with respect to the collection of live list handles:
every slot and every root is in order. This is exactly the reference-count
discipline the C++ maintains. -/
def WF (h : LHeap V) (roots : List (Option Nat)) : Prop :=
  (∀ p, p < h.size → nodeOK h roots p = true) ∧ (∀ r ∈ roots, rootOK h r = true)

instance {V : Type} (h : LHeap V) (roots : List (Option Nat)) :
    Decidable (WF h roots) := by
  unfold WF; infer_instance

/-- The chain discipline alone (no root accounting): next pointers of
allocated nodes address allocated, strictly older slots. -/
def chainOK (h : LHeap V) : Bool :=
  (List.range h.size).all (fun p =>
    match h.read p with
    | none => true
    | some nd =>
      match nd.next with
      | none => true
      | some q => decide (q < p) && (h.read q).isSome)

example : cheapest_paths [[⟨3, 0, (7 : ℤ)⟩]] = some [[⟨7, 0⟩, ⟨0, 3⟩]] := by decide

example : cheapest_paths [[⟨0, 0, (5 : ℤ)⟩]] = some [[⟨5, 0⟩, ⟨0, 0⟩]] := by decide

example :
    cheapest_paths [[⟨0, 0, (1 : ℤ)⟩, ⟨0, 1, 4⟩], [⟨0, 0, 2⟩, ⟨1, 0, 1⟩]] =
      some [[⟨3, 0⟩, ⟨1, 0⟩, ⟨0, 0⟩]] := by decide

example : cheapest_paths ([] : List (List (Edge ℤ))) = none := by decide

example : (⟨[some ⟨10, 3, none⟩, some ⟨11, 1, some 0⟩, some ⟨12, 1, some 0⟩]⟩ :
    LHeap Nat).cleanup (some 1) =
      some ⟨[some ⟨10, 2, none⟩, none, some ⟨12, 1, some 0⟩]⟩ := by decide

example : WF (⟨[some ⟨10, 3, none⟩, some ⟨11, 1, some 0⟩, some ⟨12, 1, some 0⟩]⟩ :
    LHeap Nat) [some 1, some 2, some 0] := by decide

example : releaseAll (⟨[some ⟨10, 3, none⟩, some ⟨11, 1, some 0⟩,
    some ⟨12, 1, some 0⟩]⟩ : LHeap Nat) [some 1, some 2, some 0] =
      some ⟨[none, none, none]⟩ := by decide

/-!
Helper lemmas: getD, set and countP on plain lists, then the heap
operations and the reference-count discipline of cleanup.
-/

theorem getD_set_self {α : Type} :
    ∀ (l : List α) (i : Nat) (v d : α), i < l.length →
      (l.set i v).getD i d = v := by
  intro l
  induction l with
  | nil => intro i v d hi; simp at hi
  | cons x xs ih =>
    intro i v d hi
    cases i with
    | zero => rfl
    | succ j =>
      simp only [List.set, List.getD, List.length_cons] at *
      exact ih j v d (by omega)

theorem getD_set_ne {α : Type} :
    ∀ (l : List α) (i j : Nat) (v d : α), i ≠ j →
      (l.set i v).getD j d = l.getD j d := by
  intro l
  induction l with
  | nil => intro i j v d _; simp [List.set]
  | cons x xs ih =>
    intro i j v d hij
    cases i with
    | zero =>
      cases j with
      | zero => exact absurd rfl hij
      | succ k => rfl
    | succ i2 =>
      cases j with
      | zero => rfl
      | succ k =>
        simp only [List.set, List.getD]
        exact ih i2 k v d (by omega)

theorem countP_set {α : Type} :
    ∀ (l : List α) (i : Nat) (v d : α) (f : α → Bool), i < l.length →
      (l.set i v).countP f + (if f (l.getD i d) then 1 else 0) =
        l.countP f + (if f v then 1 else 0) := by
  intro l
  induction l with
  | nil => intro i v d f hi; simp at hi
  | cons x xs ih =>
    intro i v d f hi
    cases i with
    | zero =>
      simp only [List.set, List.getD_cons_zero, List.countP_cons]
      omega
    | succ j =>
      simp only [List.set, List.getD_cons_succ, List.countP_cons,
        List.length_cons] at *
      have := ih j v d f (by omega)
      omega

theorem getD_mem {α : Type} (l : List α) (i : Nat) (d : α) (hi : i < l.length) :
    l.getD i d ∈ l := by
  rw [List.getD_eq_getElem l d hi]
  exact List.getElem_mem hi

/-- read beyond the store is none. -/
theorem LHeap.read_of_size_le {V : Type} (h : LHeap V) (p : Nat)
    (hp : h.size ≤ p) : h.read p = none :=
  List.getD_eq_default _ _ hp

theorem LHeap.read_lt_size {V : Type} {h : LHeap V} {p : Nat} {nd : LNode V}
    (hr : h.read p = some nd) : p < h.size := by
  by_contra hc
  rw [h.read_of_size_le p (by omega)] at hr
  exact Option.noConfusion hr

theorem LHeap.size_write {V : Type} (h : LHeap V) (p : Nat)
    (s : Option (LNode V)) : (h.write p s).size = h.size :=
  List.length_set _ _ _

theorem LHeap.read_write_self {V : Type} (h : LHeap V) (p : Nat)
    (s : Option (LNode V)) (hp : p < h.size) : (h.write p s).read p = s :=
  getD_set_self _ _ _ _ hp

theorem LHeap.read_write_ne {V : Type} (h : LHeap V) (p q : Nat)
    (s : Option (LNode V)) (hq : p ≠ q) : (h.write p s).read q = h.read q :=
  getD_set_ne _ _ _ _ _ hq

theorem pointersTo_eq_countP {V : Type} (h : LHeap V) (x : Nat) :
    h.pointersTo x = h.store.countP (nextHits x) := by
  unfold LHeap.pointersTo nextHits
  rfl

theorem LHeap.store_write {V : Type} (h : LHeap V) (p : Nat)
    (s : Option (LNode V)) : (h.write p s).store = h.store.set p s := rfl

/-- Rewriting a slot with a node of the same next pointer leaves every
pointer count unchanged. -/
theorem pointersTo_write_same_next {V : Type} {h : LHeap V} {p : Nat}
    {nd nd2 : LNode V} (hread : h.read p = some nd)
    (hnx : nd2.next = nd.next) (x : Nat) :
    (h.write p (some nd2)).pointersTo x = h.pointersTo x := by
  have hp : p < h.size := h.read_lt_size hread
  have hc := countP_set h.store p (some nd2) none (nextHits x) hp
  have hg : h.store.getD p none = some nd := hread
  rw [hg] at hc
  have heq : nextHits x (some nd2) = nextHits x (some nd) := by
    simp [nextHits, hnx]
  rw [heq] at hc
  rw [pointersTo_eq_countP, pointersTo_eq_countP, LHeap.store_write]
  omega

/-- Freeing a slot removes exactly that node's next-pointer contribution. -/
theorem pointersTo_write_none {V : Type} {h : LHeap V} {p : Nat}
    {nd : LNode V} (hread : h.read p = some nd) (x : Nat) :
    (h.write p none).pointersTo x +
      (if nd.next = some x then 1 else 0) = h.pointersTo x := by
  have hp : p < h.size := h.read_lt_size hread
  have hc := countP_set h.store p (none : Option (LNode V)) none (nextHits x) hp
  have hg : h.store.getD p none = some nd := hread
  rw [hg] at hc
  have h2 : (if nextHits x (none : Option (LNode V)) = true then 1 else 0) = 0 := rfl
  rw [h2] at hc
  rw [pointersTo_eq_countP, pointersTo_eq_countP, LHeap.store_write]
  by_cases hx : nd.next = some x
  · have h1 : (if nextHits x (some nd) = true then 1 else 0) = 1 := by
      simp [nextHits, hx]
    rw [h1] at hc
    rw [if_pos hx]
    omega
  · have h1 : (if nextHits x (some nd) = true then 1 else 0) = 0 := by
      simp [nextHits, hx]
    rw [h1] at hc
    rw [if_neg hx]
    omega

/-- A node whose next pointer hits x forces a positive pointer count. -/
theorem pointersTo_pos {V : Type} {h : LHeap V} {p : Nat} {nd : LNode V}
    (hread : h.read p = some nd) {x : Nat} (hx : nd.next = some x) :
    0 < h.pointersTo x := by
  have hp : p < h.size := h.read_lt_size hread
  rw [pointersTo_eq_countP]
  rw [List.countP_pos_iff]
  refine ⟨some nd, ?_, ?_⟩
  · have : h.store.getD p none = some nd := hread
    rw [← this]
    exact getD_mem _ _ _ hp
  · simp [nextHits, hx]

theorem rootsTo_cons (r : Option Nat) (rest : List (Option Nat)) (p : Nat) :
    rootsTo (r :: rest) p = rootsTo rest p + (if r = some p then 1 else 0) := by
  simp [rootsTo, List.countP_cons]

theorem rootsTo_pos_of_mem {rest : List (Option Nat)} {p : Nat}
    (hm : some p ∈ rest) : 0 < rootsTo rest p := by
  unfold rootsTo
  rw [List.countP_pos_iff]
  exact ⟨some p, hm, by simp⟩

theorem nodeOK_iff {V : Type} {h : LHeap V} {roots : List (Option Nat)}
    {p : Nat} {nd : LNode V} (hread : h.read p = some nd) :
    nodeOK h roots p = true ↔
      (nd.refcount = (rootsTo roots p + h.pointersTo p : Int) ∧
       1 ≤ nd.refcount ∧
       ∀ q, nd.next = some q → q < p ∧ (h.read q).isSome = true) := by
  unfold nodeOK
  rw [hread]
  cases hnx : nd.next with
  | none => simp [hnx]
  | some q => simp [hnx, and_assoc]

theorem nodeOK_of_read_none {V : Type} {h : LHeap V}
    {roots : List (Option Nat)} {p : Nat} (hread : h.read p = none) :
    nodeOK h roots p = true := by
  unfold nodeOK
  rw [hread]

theorem rootOK_iff {V : Type} (h : LHeap V) (p : Nat) :
    rootOK h (some p) = true ↔ (h.read p).isSome = true := Iff.rfl

theorem wf_read_of_root {V : Type} {h : LHeap V} {roots : List (Option Nat)}
    {p : Nat} (hwf : WF h roots) (hm : some p ∈ roots) :
    ∃ nd, h.read p = some nd := by
  have hro : (h.read p).isSome = true := (rootOK_iff h p).mp (hwf.2 (some p) hm)
  exact Option.isSome_iff_exists.mp hro

/-- Decrementing a still-shared head node preserves well-formedness once
its handle is dropped from the roots. -/
theorem wf_dec_step {V : Type} {h : LHeap V} {p : Nat}
    {rest : List (Option Nat)} {nd : LNode V}
    (hread : h.read p = some nd) (hwf : WF h (some p :: rest))
    (hne : nd.refcount - 1 ≠ 0) :
    WF (h.write p (some ⟨nd.value, nd.refcount - 1, nd.next⟩)) rest := by
  have hp : p < h.size := h.read_lt_size hread
  obtain ⟨hrc, hpos, hnext⟩ := (nodeOK_iff hread).mp (hwf.1 p hp)
  have hptr : ∀ x,
      (h.write p (some ⟨nd.value, nd.refcount - 1, nd.next⟩)).pointersTo x =
        h.pointersTo x :=
    fun x =>
      @pointersTo_write_same_next V h p nd ⟨nd.value, nd.refcount - 1, nd.next⟩
        hread rfl x
  rw [rootsTo_cons, if_pos rfl] at hrc
  constructor
  · intro p2 hp2
    rw [h.size_write] at hp2
    by_cases hpp : p2 = p
    · subst hpp
      have hr2 : (h.write p2 (some ⟨nd.value, nd.refcount - 1, nd.next⟩)).read p2 =
          some ⟨nd.value, nd.refcount - 1, nd.next⟩ :=
        h.read_write_self _ _ hp
      apply (nodeOK_iff hr2).mpr
      refine ⟨?_, ?_, ?_⟩
      · show nd.refcount - 1 = _
        rw [hptr]
        push_cast at hrc ⊢
        omega
      · show 1 ≤ nd.refcount - 1
        omega
      · intro q hq
        obtain ⟨hqp, hqs⟩ := hnext q hq
        refine ⟨hqp, ?_⟩
        rw [h.read_write_ne p2 q _ (by omega)]
        exact hqs
    · have hr2 : (h.write p (some ⟨nd.value, nd.refcount - 1, nd.next⟩)).read p2 =
          h.read p2 :=
        h.read_write_ne p p2 _ (fun a => hpp a.symm)
      cases hrp2 : h.read p2 with
      | none => exact nodeOK_of_read_none (hr2.trans hrp2)
      | some nd2 =>
        obtain ⟨hrc2, hpos2, hnext2⟩ := (nodeOK_iff hrp2).mp (hwf.1 p2 hp2)
        apply (nodeOK_iff (hr2.trans hrp2)).mpr
        rw [rootsTo_cons, if_neg (by simp [Ne.symm hpp])] at hrc2
        refine ⟨?_, hpos2, ?_⟩
        · rw [hptr]
          push_cast at hrc2 ⊢
          omega
        · intro q hq
          obtain ⟨hqp, hqs⟩ := hnext2 q hq
          refine ⟨hqp, ?_⟩
          by_cases hqq : q = p
          · subst hqq
            rw [h.read_write_self _ _ hp]
            rfl
          · rw [h.read_write_ne p q _ (fun a => hqq a.symm)]
            exact hqs
  · intro r hr
    cases r with
    | none => rfl
    | some p2 =>
      have hro : (h.read p2).isSome = true :=
        (rootOK_iff h p2).mp (hwf.2 (some p2) (List.mem_cons_of_mem _ hr))
      rw [rootOK_iff]
      by_cases hqq : p2 = p
      · subst hqq
        rw [h.read_write_self _ _ hp]
        rfl
      · rw [h.read_write_ne p p2 _ (fun a => hqq a.symm)]
        exact hro

/-- Freeing a node whose last reference was the dropped handle preserves
well-formedness, with the node's next pointer promoted to a root for the
continuing walk. -/
theorem wf_free_step {V : Type} {h : LHeap V} {p : Nat}
    {rest : List (Option Nat)} {nd : LNode V}
    (hread : h.read p = some nd) (hwf : WF h (some p :: rest))
    (hroots0 : rootsTo rest p = 0) (hptr0 : h.pointersTo p = 0) :
    WF (h.write p none) (nd.next :: rest) := by
  have hp : p < h.size := h.read_lt_size hread
  obtain ⟨hrc, hpos, hnext⟩ := (nodeOK_iff hread).mp (hwf.1 p hp)
  have hptr : ∀ x, (h.write p none).pointersTo x +
      (if nd.next = some x then 1 else 0) = h.pointersTo x :=
    fun x => pointersTo_write_none hread x
  constructor
  · intro p2 hp2
    rw [h.size_write] at hp2
    by_cases hpp : p2 = p
    · subst hpp
      exact nodeOK_of_read_none (h.read_write_self _ _ hp)
    · have hr2 : (h.write p none).read p2 = h.read p2 :=
        h.read_write_ne p p2 _ (fun a => hpp a.symm)
      cases hrp2 : h.read p2 with
      | none => exact nodeOK_of_read_none (hr2.trans hrp2)
      | some nd2 =>
        obtain ⟨hrc2, hpos2, hnext2⟩ := (nodeOK_iff hrp2).mp (hwf.1 p2 hp2)
        apply (nodeOK_iff (hr2.trans hrp2)).mpr
        rw [rootsTo_cons, if_neg (by simp [Ne.symm hpp])] at hrc2
        refine ⟨?_, hpos2, ?_⟩
        · rw [rootsTo_cons]
          have hx := hptr p2
          by_cases hnx : nd.next = some p2
          · rw [if_pos hnx] at hx ⊢
            push_cast at hrc2 ⊢
            omega
          · rw [if_neg hnx] at hx ⊢
            push_cast at hrc2 ⊢
            omega
        · intro q hq
          obtain ⟨hqp, hqs⟩ := hnext2 q hq
          refine ⟨hqp, ?_⟩
          have hqq : q ≠ p := by
            intro hc
            subst hc
            have := pointersTo_pos hrp2 hq
            omega
          rw [h.read_write_ne p q _ (fun a => hqq a.symm)]
          exact hqs
  · intro r hr
    rcases List.mem_cons.mp hr with hr1 | hr2
    · subst hr1
      cases hnx : nd.next with
      | none => rfl
      | some q =>
        obtain ⟨hqp, hqs⟩ := hnext q hnx
        rw [rootOK_iff]
        have hqq : q ≠ p := by omega
        rw [h.read_write_ne p q _ (fun a => hqq a.symm)]
        exact hqs
    · cases r with
      | none => rfl
      | some p2 =>
        have hro : (h.read p2).isSome = true :=
          (rootOK_iff h p2).mp (hwf.2 (some p2) (List.mem_cons_of_mem _ hr2))
        rw [rootOK_iff]
        have hqq : p2 ≠ p := by
          intro hc
          subst hc
          have := rootsTo_pos_of_mem hr2
          omega
        rw [h.read_write_ne p p2 _ (fun a => hqq a.symm)]
        exact hro

theorem rootsTo_cons_none (rest : List (Option Nat)) (p : Nat) :
    rootsTo (none :: rest) p = rootsTo rest p := by
  rw [rootsTo_cons]
  simp

theorem WF_cons_none {V : Type} {h : LHeap V} {rest : List (Option Nat)} :
    WF h (none :: rest) ↔ WF h rest := by
  constructor
  · rintro ⟨h1, h2⟩
    refine ⟨fun p hp => ?_, fun r hr => h2 r (List.mem_cons_of_mem _ hr)⟩
    cases hr2 : h.read p with
    | none => exact nodeOK_of_read_none hr2
    | some nd =>
      obtain ⟨a, b, c⟩ := (nodeOK_iff hr2).mp (h1 p hp)
      refine (nodeOK_iff hr2).mpr ⟨?_, b, c⟩
      rwa [rootsTo_cons_none] at a
  · rintro ⟨h1, h2⟩
    refine ⟨fun p hp => ?_, fun r hr => ?_⟩
    · cases hr2 : h.read p with
      | none => exact nodeOK_of_read_none hr2
      | some nd =>
        obtain ⟨a, b, c⟩ := (nodeOK_iff hr2).mp (h1 p hp)
        refine (nodeOK_iff hr2).mpr ⟨?_, b, c⟩
        rwa [rootsTo_cons_none]
    · rcases List.mem_cons.mp hr with h3 | h3
      · subst h3; rfl
      · exact h2 r h3

/-- The destructor's walk succeeds on a well-formed heap and leaves the
heap well-formed for the remaining handles; no slot is ever decremented
through a freed node (no double free) and the store does not change
shape. -/
theorem cleanupAux_wf {V : Type} :
    ∀ (fuel : Nat) (h : LHeap V) (r : Option Nat) (rest : List (Option Nat)),
      WF h (r :: rest) → (∀ p, r = some p → p < fuel) →
      ∃ h2, cleanupAux h r fuel = some h2 ∧ WF h2 rest ∧ h2.size = h.size := by
  intro fuel
  induction fuel with
  | zero =>
    intro h r rest hwf hf
    cases r with
    | none => exact ⟨h, rfl, WF_cons_none.mp hwf, rfl⟩
    | some p => exact absurd (hf p rfl) (by omega)
  | succ fuel ih =>
    intro h r rest hwf hf
    cases r with
    | none => exact ⟨h, rfl, WF_cons_none.mp hwf, rfl⟩
    | some p =>
      obtain ⟨nd, hread⟩ := wf_read_of_root hwf (List.mem_cons_self _ _)
      have hp : p < h.size := h.read_lt_size hread
      obtain ⟨hrc, hpos, hnext⟩ := (nodeOK_iff hread).mp (hwf.1 p hp)
      by_cases hdec : nd.refcount - 1 = 0
      · have hzero : rootsTo rest p = 0 ∧ h.pointersTo p = 0 := by
          rw [rootsTo_cons, if_pos rfl] at hrc
          push_cast at hrc
          constructor <;> omega
        have hwf2 := wf_free_step hread hwf hzero.1 hzero.2
        have hf2 : ∀ q, nd.next = some q → q < fuel := by
          intro q hq
          have h1 := (hnext q hq).1
          have h2 := hf p rfl
          omega
        obtain ⟨h3, hc3, hwf3, hs3⟩ := ih (h.write p none) nd.next rest hwf2 hf2
        refine ⟨h3, ?_, hwf3, ?_⟩
        · show cleanupAux h (some p) (fuel + 1) = some h3
          unfold cleanupAux
          rw [hread]
          show (if nd.refcount - 1 = 0 then
              cleanupAux (h.write p none) nd.next fuel
            else some (h.write p
              (some ⟨nd.value, nd.refcount - 1, nd.next⟩))) = some h3
          rw [if_pos hdec]
          exact hc3
        · rw [hs3, h.size_write]
      · refine ⟨h.write p (some ⟨nd.value, nd.refcount - 1, nd.next⟩), ?_, ?_, ?_⟩
        · show cleanupAux h (some p) (fuel + 1) = _
          unfold cleanupAux
          rw [hread]
          show (if nd.refcount - 1 = 0 then
              cleanupAux (h.write p none) nd.next fuel
            else some (h.write p
              (some ⟨nd.value, nd.refcount - 1, nd.next⟩))) = _
          rw [if_neg hdec]
        · exact wf_dec_step hread hwf hdec
        · exact h.size_write _ _

/-- cleanup with the stock fuel always succeeds on a well-formed heap. -/
theorem cleanup_wf {V : Type} {h : LHeap V} {r : Option Nat}
    {rest : List (Option Nat)} (hwf : WF h (r :: rest)) :
    ∃ h2, h.cleanup r = some h2 ∧ WF h2 rest ∧ h2.size = h.size := by
  apply cleanupAux_wf (h.size + 1) h r rest hwf
  intro p hp
  subst hp
  obtain ⟨nd, hread⟩ := wf_read_of_root hwf (List.mem_cons_self _ _)
  have := h.read_lt_size hread
  omega

/-- Releasing every live handle in turn succeeds and ends in a heap that
is well-formed for the empty set of handles. -/
theorem releaseAll_wf {V : Type} :
    ∀ (roots : List (Option Nat)) (h : LHeap V), WF h roots →
      ∃ h2, releaseAll h roots = some h2 ∧ WF h2 [] ∧ h2.size = h.size := by
  intro roots
  induction roots with
  | nil => exact fun h hwf => ⟨h, rfl, hwf, rfl⟩
  | cons r rs ih =>
    intro h hwf
    obtain ⟨h2, hc, hwf2, hs⟩ := cleanup_wf hwf
    obtain ⟨h3, hc3, hwf3, hs3⟩ := ih h2 hwf2
    refine ⟨h3, ?_, hwf3, by omega⟩
    show releaseAll h (r :: rs) = some h3
    unfold releaseAll
    rw [hc]
    exact hc3

/-- In a heap that is well-formed with no live handles, nothing remains
allocated: every node was released. -/
theorem wf_nil_read_none {V : Type} {h : LHeap V} (hwf : WF h []) :
    ∀ p, h.read p = none := by
  have main : ∀ n p, h.size - p ≤ n → h.read p = none := by
    intro n
    induction n with
    | zero =>
      intro p hp
      exact h.read_of_size_le p (by omega)
    | succ n ih =>
      intro p hp
      cases hr : h.read p with
      | none => rfl
      | some nd =>
        exfalso
        have hps : p < h.size := h.read_lt_size hr
        obtain ⟨hrc, hpos, _⟩ := (nodeOK_iff hr).mp (hwf.1 p hps)
        have h0 : rootsTo [] p = 0 := rfl
        have hptrpos : 0 < h.pointersTo p := by
          rw [h0] at hrc
          push_cast at hrc
          omega
        rw [pointersTo_eq_countP, List.countP_pos_iff] at hptrpos
        obtain ⟨s, hsmem, hs⟩ := hptrpos
        cases s with
        | none => simp [nextHits] at hs
        | some nd2 =>
          have hnx : nd2.next = some p := by simpa [nextHits] using hs
          obtain ⟨i, hi, hgi⟩ := List.mem_iff_getElem.mp hsmem
          have hri : h.read i = some nd2 := by
            unfold LHeap.read
            rw [List.getD_eq_getElem _ _ hi]
            exact hgi
          obtain ⟨_, _, hnext2⟩ := (nodeOK_iff hri).mp (hwf.1 i hi)
          have hip : p < i := (hnext2 p hnx).1
          have hnone : h.read i = none := ih i (by omega)
          rw [hnone] at hri
          exact Option.noConfusion hri
  exact fun p => main (h.size - p) p (le_refl _)

/-- Every slot of a fully released store is empty. -/
theorem store_all_none {V : Type} {h : LHeap V}
    (hnone : ∀ p, h.read p = none) :
    h.store.all (fun s => s.isNone) = true := by
  rw [List.all_eq_true]
  intro s hs
  obtain ⟨i, hi, hgi⟩ := List.mem_iff_getElem.mp hs
  have hn := hnone i
  unfold LHeap.read at hn
  rw [List.getD_eq_getElem _ _ hi, hgi] at hn
  rw [hn]
  rfl

theorem rootOK_elim {V : Type} {h : LHeap V} {a : Option Nat}
    (ha : rootOK h a = true) : ∀ p, a = some p → (h.read p).isSome = true := by
  intro p hp
  subst hp
  exact (rootOK_iff h p).mp ha

/-- Claim C5: releasing a list walks its chain iteratively, decrementing
reference counts and stopping at the first node still referenced
elsewhere; on a well-formed heap the walk never touches a freed slot (no
double free), the remaining handles still address live nodes (no
destruction of a shared suffix), and releasing every handle frees every
node, leaving an empty store (no leak, each node destroyed exactly
once). -/
theorem cleanup_release_safe {V : Type} (h : LHeap V) (r : Option Nat)
    (rest : List (Option Nat)) (hwf : WF h (r :: rest)) :
    (∃ h2, h.cleanup r = some h2 ∧ WF h2 rest ∧ h2.size = h.size ∧
      ∀ r2 ∈ rest, ∀ p, r2 = some p → (h2.read p).isSome = true) ∧
    (∃ hfin, releaseAll h (r :: rest) = some hfin ∧
      hfin.store.all (fun s => s.isNone) = true) := by
  constructor
  · obtain ⟨h2, hc, hwf2, hs⟩ := cleanup_wf hwf
    refine ⟨h2, hc, hwf2, hs, ?_⟩
    intro r2 hr2 p hp
    subst hp
    obtain ⟨nd, hread⟩ := wf_read_of_root hwf2 hr2
    rw [hread]
    rfl
  · obtain ⟨hfin, hrel, hwfn, _⟩ := releaseAll_wf (r :: rest) h hwf
    exact ⟨hfin, hrel, store_all_none (wf_nil_read_none hwfn)⟩

theorem cleanup_release_safe_witness :
    WF (⟨[some ⟨10, 3, none⟩, some ⟨11, 1, some 0⟩, some ⟨12, 1, some 0⟩]⟩ :
        LHeap Nat) (some 1 :: [some 2, some 0]) ∧
    ((∃ h2, (⟨[some ⟨10, 3, none⟩, some ⟨11, 1, some 0⟩,
          some ⟨12, 1, some 0⟩]⟩ : LHeap Nat).cleanup (some 1) = some h2 ∧
        WF h2 [some 2, some 0] ∧
        h2.size = (⟨[some ⟨10, 3, none⟩, some ⟨11, 1, some 0⟩,
          some ⟨12, 1, some 0⟩]⟩ : LHeap Nat).size ∧
        ∀ r2 ∈ [some 2, some 0], ∀ p, r2 = some p →
          (h2.read p).isSome = true) ∧
      (∃ hfin, releaseAll (⟨[some ⟨10, 3, none⟩, some ⟨11, 1, some 0⟩,
          some ⟨12, 1, some 0⟩]⟩ : LHeap Nat) (some 1 :: [some 2, some 0]) =
            some hfin ∧
        hfin.store.all (fun s => s.isNone) = true)) :=
  ⟨by decide,
   cleanup_release_safe _ (some 1) [some 2, some 0] (by decide)⟩

/-- Claim C8: head and tail on the empty list fail with EmptyListAccess;
on any list whose pointer addresses a live node, head returns the front
node's value, tail succeeds and hands back the front node's next pointer,
and neither fails. -/
theorem head_tail_empty_access {V : Type} (h : LHeap V) :
    LHeap.headE h none = Except.error LispyError.emptyListAccess ∧
    LHeap.tailE h none = Except.error LispyError.emptyListAccess ∧
    ∀ p nd, h.read p = some nd →
      LHeap.headE h (some p) = Except.ok nd.value ∧
      ∃ h2, LHeap.tailE h (some p) = Except.ok (h2, nd.next) := by
  refine ⟨rfl, rfl, ?_⟩
  intro p nd hread
  constructor
  · simp only [LHeap.headE, hread]
  · simp only [LHeap.tailE, hread]
    exact ⟨_, rfl⟩

theorem head_tail_empty_access_witness :
    (⟨[some ⟨(5 : Nat), 1, none⟩]⟩ : LHeap Nat).read 0 =
      some ⟨5, 1, none⟩ ∧
    LHeap.headE (⟨[some ⟨(5 : Nat), 1, none⟩]⟩ : LHeap Nat) (some 0) =
      Except.ok 5 ∧
    ∃ h2, LHeap.tailE (⟨[some ⟨(5 : Nat), 1, none⟩]⟩ : LHeap Nat) (some 0) =
      Except.ok (h2, none) :=
  ⟨by decide,
   ((head_tail_empty_access _).2.2 0 ⟨5, 1, none⟩ (by decide)).1,
   ((head_tail_empty_access _).2.2 0 ⟨5, 1, none⟩ (by decide)).2⟩

/-- Claim C6: list equality is object identity of the node pointers: true
exactly when the two handles address the same chain origin; a list equals
the empty list exactly when it is itself empty; and two distinct live
lists with equal contents are not equal. -/
theorem lispy_eq_identity :
    (∀ a b : Option Nat, lispyBEq a b = true ↔ a = b) ∧
    (∀ a : Option Nat, (lispyBEq a none = true ↔ LHeap.emptyB a = true)) ∧
    (∃ (h : LHeap Nat) (p q : Nat),
      lispyBEq (some p) (some q) = false ∧
      (h.read p).isSome = true ∧ (h.read q).isSome = true ∧
      h.listValues (some p) = h.listValues (some q) ∧
      h.listValues (some p) ≠ []) := by
  refine ⟨?_, ?_, ?_⟩
  · intro a b
    simp [lispyBEq]
  · intro a
    cases a <;> simp [lispyBEq, LHeap.emptyB]
  · exact ⟨⟨[some ⟨5, 1, none⟩, some ⟨5, 1, none⟩]⟩, 0, 1,
      by decide, by decide, by decide, by decide, by decide⟩

/-- Claim C10: move construction steals the pointer without touching the
heap, leaving the moved-from handle null (empty() holds on it); move
assignment first releases the destination's old chain with cleanup and
then steals the pointer, again leaving the moved-from handle null, and
the transfer itself changes no reference count: when the destination was
empty the heap is completely untouched, and in general the resulting heap
is exactly the cleanup of the old destination. -/
theorem move_semantics {V : Type} (h : LHeap V) (dst src : Option Nat)
    (rest : List (Option Nat)) (hwf : WF h (dst :: rest)) :
    (LHeap.moveCtorH h src = (h, src, none) ∧
     LHeap.emptyB (LHeap.moveCtorH h src).2.2 = true) ∧
    (∃ h2, LHeap.moveAssign h dst src = some (h2, src, none) ∧
      h.cleanup dst = some h2 ∧ (dst = none → h2 = h)) := by
  refine ⟨⟨rfl, rfl⟩, ?_⟩
  obtain ⟨h2, hc, _, _⟩ := cleanup_wf hwf
  refine ⟨h2, ?_, hc, ?_⟩
  · unfold LHeap.moveAssign
    rw [hc]
  · intro hd
    subst hd
    have hnone : h.cleanup none = some h := rfl
    rw [hnone] at hc
    exact (Option.some.injEq _ _).mp hc.symm

theorem move_semantics_witness :
    WF (⟨[some ⟨(7 : Nat), 1, none⟩, some ⟨8, 1, none⟩]⟩ : LHeap Nat)
      (some 0 :: [some 1]) ∧
    (∃ h2, LHeap.moveAssign
        (⟨[some ⟨(7 : Nat), 1, none⟩, some ⟨8, 1, none⟩]⟩ : LHeap Nat)
        (some 0) (some 1) = some (h2, some 1, none) ∧
      (⟨[some ⟨(7 : Nat), 1, none⟩, some ⟨8, 1, none⟩]⟩ :
        LHeap Nat).cleanup (some 0) = some h2 ∧
      (some 0 = none → h2 = ⟨[some ⟨(7 : Nat), 1, none⟩, some ⟨8, 1, none⟩]⟩)) :=
  ⟨by decide,
   (move_semantics _ (some 0) (some 1) [some 1] (by decide)).2⟩


theorem chainOK_elim {V : Type} {h : LHeap V} (hch : chainOK h = true)
    {p : Nat} {nd : LNode V} (hread : h.read p = some nd) :
    ∀ q, nd.next = some q → q < p ∧ (h.read q).isSome = true := by
  intro q hq
  have hp : p < h.size := h.read_lt_size hread
  unfold chainOK at hch
  rw [List.all_eq_true] at hch
  have h2 := hch p (List.mem_range.mpr hp)
  simp only [hread, hq, Bool.and_eq_true, decide_eq_true_eq] at h2
  exact ⟨h2.1, h2.2⟩

theorem listValuesAux_none {V : Type} (h : LHeap V) (fuel : Nat) :
    listValuesAux h none fuel = [] := by
  cases fuel <;> rfl

theorem listValuesAux_succ_some {V : Type} (h : LHeap V) (p : Nat)
    (fuel : Nat) (nd : LNode V) (hr : h.read p = some nd) :
    listValuesAux h (some p) (fuel + 1) =
      nd.value :: listValuesAux h nd.next fuel := by
  conv_lhs => unfold listValuesAux
  rw [hr]

/-- The values along a chain do not depend on the fuel, as long as it
exceeds the head address (next pointers strictly descend). -/
theorem listValuesAux_fuel {V : Type} {h : LHeap V} (hch : chainOK h = true) :
    ∀ (p : Nat) (f g : Nat), p < f → p < g →
      listValuesAux h (some p) f = listValuesAux h (some p) g := by
  intro p
  induction p using Nat.strong_induction_on with
  | _ p ih =>
    intro f g hf hg
    cases f with
    | zero => omega
    | succ f2 =>
      cases g with
      | zero => omega
      | succ g2 =>
        cases hr : h.read p with
        | none =>
          unfold listValuesAux
          rw [hr]
        | some nd =>
          rw [listValuesAux_succ_some h p f2 nd hr,
            listValuesAux_succ_some h p g2 nd hr]
          congr 1
          cases hnx : nd.next with
          | none => rw [listValuesAux_none, listValuesAux_none]
          | some q =>
            obtain ⟨hqp, _⟩ := chainOK_elim hch hr q hnx
            exact ih q (by omega) f2 g2 (by omega) (by omega)

/-- Walking a chain only looks at values and next pointers: two heaps that
agree on those (refcounts may differ) produce the same value sequence. -/
theorem listValuesAux_agree {V : Type} {h h2 : LHeap V} (hch : chainOK h = true)
    (hag : ∀ q nd, h.read q = some nd →
      ∃ nd2, h2.read q = some nd2 ∧ nd2.value = nd.value ∧ nd2.next = nd.next) :
    ∀ (fuel : Nat) (l : Option Nat),
      (∀ p, l = some p → (h.read p).isSome = true) →
      listValuesAux h l fuel = listValuesAux h2 l fuel := by
  intro fuel
  induction fuel with
  | zero =>
    intro l hv
    cases l <;> rfl
  | succ fuel ih =>
    intro l hv
    cases l with
    | none => rw [listValuesAux_none, listValuesAux_none]
    | some p =>
      obtain ⟨nd, hread⟩ := Option.isSome_iff_exists.mp (hv p rfl)
      obtain ⟨nd2, hread2, hval, hnx⟩ := hag p nd hread
      rw [listValuesAux_succ_some h p fuel nd hread,
        listValuesAux_succ_some h2 p fuel nd2 hread2, hval, hnx]
      congr 1
      apply ih
      intro q hq
      exact (chainOK_elim hch hread q hq).2

theorem bump_none {V : Type} (h : LHeap V) : h.bump none = h := rfl

theorem bump_some_none {V : Type} (h : LHeap V) (p : Nat)
    (hr : h.read p = none) : h.bump (some p) = h := by
  show h.bumpAt p = h
  unfold LHeap.bumpAt
  rw [hr]

theorem bump_some_some {V : Type} (h : LHeap V) (p : Nat) (nd : LNode V)
    (hr : h.read p = some nd) :
    h.bump (some p) = h.write p (some ⟨nd.value, nd.refcount + 1, nd.next⟩) := by
  show h.bumpAt p = _
  unfold LHeap.bumpAt
  rw [hr]

theorem LHeap.size_bump {V : Type} (h : LHeap V) (l : Option Nat) :
    (h.bump l).size = h.size := by
  cases l with
  | none => rw [bump_none]
  | some p =>
    cases hr : h.read p with
    | none => rw [bump_some_none h p hr]
    | some nd =>
      rw [bump_some_some h p nd hr]
      exact h.size_write _ _

theorem bump_read_shape {V : Type} (h : LHeap V) (l : Option Nat) :
    ∀ q nd, h.read q = some nd →
      ∃ nd2, (h.bump l).read q = some nd2 ∧
        nd2.value = nd.value ∧ nd2.next = nd.next := by
  intro q nd hread
  cases l with
  | none =>
    rw [bump_none]
    exact ⟨nd, hread, rfl, rfl⟩
  | some p =>
    cases hr : h.read p with
    | none =>
      rw [bump_some_none h p hr]
      exact ⟨nd, hread, rfl, rfl⟩
    | some nd0 =>
      rw [bump_some_some h p nd0 hr]
      by_cases hqp : q = p
      · subst hqp
        rw [hread] at hr
        cases hr
        exact ⟨⟨nd.value, nd.refcount + 1, nd.next⟩,
          h.read_write_self _ _ (h.read_lt_size hread), rfl, rfl⟩
      · refine ⟨nd, ?_, rfl, rfl⟩
        rw [h.read_write_ne p q _ (fun a => hqp a.symm)]
        exact hread

theorem read_append_of_lt {V : Type} (h : LHeap V) (s : Option (LNode V))
    (q : Nat) (hq : q < h.size) :
    (⟨h.store ++ [s]⟩ : LHeap V).read q = h.read q := by
  show (h.store ++ [s]).getD q none = h.store.getD q none
  exact List.getD_append _ _ _ _ hq

theorem read_append_self {V : Type} (h : LHeap V) (s : Option (LNode V)) :
    (⟨h.store ++ [s]⟩ : LHeap V).read h.size = s := by
  show (h.store ++ [s]).getD h.store.length none = s
  rw [List.getD_append_right _ _ _ _ (le_refl _)]
  simp

theorem prepend_fst {V : Type} (h : LHeap V) (a : Option Nat) (v : V) :
    (h.prepend a v).1 =
      (⟨(h.bump a).store ++ [some ⟨v, 1, a⟩]⟩ : LHeap V) := rfl

theorem prepend_ptr {V : Type} (h : LHeap V) (a : Option Nat) (v : V) :
    (h.prepend a v).2 = some h.size := by
  show some (h.bump a).store.length = some h.size
  rw [show (h.bump a).store.length = (h.bump a).size from rfl, h.size_bump]

theorem prepend_size {V : Type} (h : LHeap V) (a : Option Nat) (v : V) :
    (h.prepend a v).1.size = h.size + 1 := by
  rw [prepend_fst]
  show ((h.bump a).store ++ [(some ⟨v, 1, a⟩ : Option (LNode V))]).length =
    h.size + 1
  rw [List.length_append]
  rw [show (h.bump a).store.length = (h.bump a).size from rfl, h.size_bump]
  rfl

theorem prepend_read_new {V : Type} (h : LHeap V) (a : Option Nat) (v : V) :
    (h.prepend a v).1.read h.size = some ⟨v, 1, a⟩ := by
  rw [prepend_fst]
  rw [show h.size = (h.bump a).size from (h.size_bump a).symm]
  exact read_append_self _ _

theorem prepend_read_old {V : Type} (h : LHeap V) (a : Option Nat) (v : V) :
    ∀ q nd, h.read q = some nd →
      ∃ nd2, (h.prepend a v).1.read q = some nd2 ∧
        nd2.value = nd.value ∧ nd2.next = nd.next := by
  intro q nd hread
  obtain ⟨nd2, hr2, hval, hnx⟩ := bump_read_shape h a q nd hread
  refine ⟨nd2, ?_, hval, hnx⟩
  have hq : q < (h.bump a).size := by
    rw [h.size_bump]
    exact h.read_lt_size hread
  rw [prepend_fst]
  rw [read_append_of_lt _ _ _ hq]
  exact hr2

/-- Claim C4: prepend returns a fresh list whose head is the given value
and whose tail is identity-equal to the original list (the very same
pointer, no copy of the nodes), and it does not mutate the original
list: its value sequence is unchanged. -/
theorem prepend_shares_tail {V : Type} (h : LHeap V) (a : Option Nat) (v : V)
    (hch : chainOK h = true) (ha : rootOK h a = true) :
    LHeap.headE (h.prepend a v).1 (h.prepend a v).2 = Except.ok v ∧
    (∃ h2, LHeap.tailE (h.prepend a v).1 (h.prepend a v).2 =
      Except.ok (h2, a)) ∧
    (h.prepend a v).1.listValues a = h.listValues a := by
  have hptr := prepend_ptr h a v
  have hnew := prepend_read_new h a v
  refine ⟨?_, ?_, ?_⟩
  · rw [hptr]
    simp only [LHeap.headE, hnew]
  · rw [hptr]
    simp only [LHeap.tailE, hnew]
    exact ⟨_, rfl⟩
  · unfold LHeap.listValues
    rw [prepend_size h a v]
    cases a with
    | none => rw [listValuesAux_none, listValuesAux_none]
    | some p =>
      have hv : ∀ q, (some p : Option Nat) = some q →
          (h.read q).isSome = true := rootOK_elim ha
      have h1 : listValuesAux (h.prepend (some p) v).1 (some p) (h.size + 1) =
          listValuesAux h (some p) (h.size + 1) :=
        (listValuesAux_agree hch (prepend_read_old h (some p) v)
          (h.size + 1) (some p) hv).symm
      rw [h1]
      have hp : p < h.size :=
        h.read_lt_size (Option.isSome_iff_exists.mp (hv p rfl)).choose_spec
      exact listValuesAux_fuel hch p (h.size + 1) h.size (by omega) hp

theorem prepend_shares_tail_witness :
    (chainOK (⟨[some ⟨(5 : Nat), 1, none⟩]⟩ : LHeap Nat) = true ∧
     rootOK (⟨[some ⟨(5 : Nat), 1, none⟩]⟩ : LHeap Nat) (some 0) = true) ∧
    (LHeap.headE ((⟨[some ⟨(5 : Nat), 1, none⟩]⟩ : LHeap Nat).prepend
        (some 0) 9).1
      ((⟨[some ⟨(5 : Nat), 1, none⟩]⟩ : LHeap Nat).prepend (some 0) 9).2 =
        Except.ok 9 ∧
     (∃ h2, LHeap.tailE ((⟨[some ⟨(5 : Nat), 1, none⟩]⟩ : LHeap Nat).prepend
        (some 0) 9).1
      ((⟨[some ⟨(5 : Nat), 1, none⟩]⟩ : LHeap Nat).prepend (some 0) 9).2 =
        Except.ok (h2, some 0)) ∧
     ((⟨[some ⟨(5 : Nat), 1, none⟩]⟩ : LHeap Nat).prepend
        (some 0) 9).1.listValues (some 0) =
       (⟨[some ⟨(5 : Nat), 1, none⟩]⟩ : LHeap Nat).listValues (some 0)) :=
  ⟨⟨by decide, by decide⟩,
   prepend_shares_tail ⟨[some ⟨5, 1, none⟩]⟩ (some 0) 9 (by decide) (by decide)⟩

section EngineLemmas

variable {W : Type} [AddZeroClass W] [LinearOrder W]

theorem relax_fst (prev cur : List (PathL W)) (e : Edge W) :
    (relax prev cur e).1 = seedPrev prev e := by
  simp only [relax]
  split <;> rfl

theorem relax_snd (prev cur : List (PathL W)) (e : Edge W) :
    (relax prev cur e).2 =
      if cur.getD e.toV [] = [] ∨
          headWeight (cur.getD e.toV []) > proposedTotal prev e then
        cur.set e.toV (⟨proposedTotal prev e, e.toV⟩ ::
          (seedPrev prev e).getD e.frm [])
      else cur := by
  simp only [relax]
  split
  next h =>
    rw [if_pos (show cur.getD e.toV [] = [] ∨
      headWeight (cur.getD e.toV []) > proposedTotal prev e from h)]
    rfl
  next h =>
    rw [if_neg (show ¬(cur.getD e.toV [] = [] ∨
      headWeight (cur.getD e.toV []) > proposedTotal prev e) from h)]

end EngineLemmas

section EngineClaims

variable {W : Type} [AddZeroClass W] [LinearOrder W]

/-- Claim C1: an edge relaxation updates the current-layer slot of the
target vertex exactly when that slot is empty or the proposed total
(weight at the seeded source head plus the edge weight) strictly beats
the stored head weight; the new entry is the source path with the node
of the target vertex and the proposed total prepended; every other slot
is untouched; and on an exact tie nothing changes, keeping the
earlier-seen path. -/
theorem relax_updates_iff (prev cur : List (PathL W)) (e : Edge W)
    (hto : e.toV < cur.length) :
    ((relax prev cur e).2.getD e.toV [] =
      if cur.getD e.toV [] = [] ∨
          headWeight (cur.getD e.toV []) > proposedTotal prev e then
        ⟨proposedTotal prev e, e.toV⟩ :: (seedPrev prev e).getD e.frm []
      else cur.getD e.toV []) ∧
    (∀ w, w ≠ e.toV → (relax prev cur e).2.getD w [] = cur.getD w []) ∧
    (cur.getD e.toV [] ≠ [] →
      proposedTotal prev e = headWeight (cur.getD e.toV []) →
      (relax prev cur e).2 = cur) := by
  rw [relax_snd]
  by_cases hc : cur.getD e.toV [] = [] ∨
      headWeight (cur.getD e.toV []) > proposedTotal prev e
  · rw [if_pos hc, if_pos hc]
    refine ⟨getD_set_self _ _ _ _ hto, ?_, ?_⟩
    · intro w hw
      exact getD_set_ne _ _ _ _ _ (fun a => hw a.symm)
    · intro hne heq
      exfalso
      rcases hc with hc | hc
      · exact hne hc
      · rw [heq] at hc
        exact lt_irrefl _ hc
  · rw [if_neg hc, if_neg hc]
    exact ⟨rfl, fun w _ => rfl, fun _ _ => rfl⟩

theorem relax_updates_iff_witness :
    (0 : Nat) < ([[]] : List (PathL ℤ)).length ∧
    (((relax ([] : List (PathL ℤ)) [[]] ⟨0, 0, 7⟩).2.getD 0 [] =
      if ([[]] : List (PathL ℤ)).getD 0 [] = [] ∨
          headWeight (([[]] : List (PathL ℤ)).getD 0 []) >
            proposedTotal ([] : List (PathL ℤ)) ⟨0, 0, 7⟩ then
        ⟨proposedTotal ([] : List (PathL ℤ)) ⟨0, 0, 7⟩, 0⟩ ::
          (seedPrev ([] : List (PathL ℤ)) ⟨0, 0, 7⟩).getD 0 []
      else ([[]] : List (PathL ℤ)).getD 0 []) ∧
    (∀ w, w ≠ 0 →
      (relax ([] : List (PathL ℤ)) [[]] ⟨0, 0, 7⟩).2.getD w [] =
        ([[]] : List (PathL ℤ)).getD w []) ∧
    (([[]] : List (PathL ℤ)).getD 0 [] ≠ [] →
      proposedTotal ([] : List (PathL ℤ)) ⟨0, 0, 7⟩ =
        headWeight (([[]] : List (PathL ℤ)).getD 0 []) →
      (relax ([] : List (PathL ℤ)) [[]] ⟨0, 0, 7⟩).2 = [[]])) :=
  ⟨by decide, relax_updates_iff ([] : List (PathL ℤ)) [[]] ⟨0, 0, 7⟩ (by decide)⟩

/-- The seeded slot of the previous array holds the single weight-zero
node at the source vertex. -/
theorem seeded_slot (prev cur : List (PathL W)) (e : Edge W)
    (hemp : prev.getD e.frm [] = []) (hfrm : e.frm < prev.length) :
    (relax prev cur e).1.getD e.frm [] = [⟨0, e.frm⟩] := by
  rw [relax_fst]
  unfold seedPrev
  rw [if_pos hemp]
  exact getD_set_self _ _ _ _ hfrm

/-- Claim C3: a relaxation whose source slot is empty first seeds it with
the single weight-zero node at the source vertex, so the proposed total is
exactly 0 + weight; and the spec's concrete case follows: a single layer
whose only edge is (3, 0, 7) produces one path of total weight exactly 7
through source vertex 3. -/
theorem lazy_seed_zero :
    (∀ (W2 : Type) [AddZeroClass W2] [LinearOrder W2]
        (prev cur : List (PathL W2)) (e : Edge W2),
      prev.getD e.frm [] = [] → e.frm < prev.length →
        (relax prev cur e).1.getD e.frm [] = [⟨0, e.frm⟩] ∧
        proposedTotal prev e = 0 + e.weight ∧
        (cur.getD e.toV [] = [] → e.toV < cur.length →
          (relax prev cur e).2.getD e.toV [] =
            [⟨0 + e.weight, e.toV⟩, ⟨0, e.frm⟩])) ∧
    cheapest_paths [[(⟨3, 0, 7⟩ : Edge ℤ)]] = some [[⟨7, 0⟩, ⟨0, 3⟩]] := by
  constructor
  · intro W2 _ _ prev cur e hemp hfrm
    have hslot : (seedPrev prev e).getD e.frm [] = [⟨0, e.frm⟩] := by
      unfold seedPrev
      rw [if_pos hemp]
      exact getD_set_self _ _ _ _ hfrm
    have hprop : proposedTotal prev e = 0 + e.weight := by
      unfold proposedTotal
      rw [hslot]
      rfl
    refine ⟨seeded_slot prev cur e hemp hfrm, hprop, ?_⟩
    intro hcur htov
    rw [relax_snd, if_pos (Or.inl hcur), getD_set_self _ _ _ _ htov,
      hslot, hprop]
  · decide

theorem lazy_seed_zero_witness :
    (([[], [], [], []] : List (PathL ℤ)).getD 3 [] = [] ∧
     (3 : Nat) < ([[], [], [], []] : List (PathL ℤ)).length) ∧
    ((relax ([[], [], [], []] : List (PathL ℤ)) [[]] ⟨3, 0, 7⟩).1.getD 3 [] =
      [⟨0, 3⟩] ∧
     proposedTotal ([[], [], [], []] : List (PathL ℤ)) ⟨3, 0, 7⟩ = 0 + 7 ∧
     (([[]] : List (PathL ℤ)).getD 0 [] = [] → (0 : Nat) < 1 →
       (relax ([[], [], [], []] : List (PathL ℤ)) [[]] ⟨3, 0, 7⟩).2.getD 0 [] =
         [⟨0 + 7, 0⟩, ⟨0, 3⟩])) ∧
    cheapest_paths [[(⟨3, 0, 7⟩ : Edge ℤ)]] = some [[⟨7, 0⟩, ⟨0, 3⟩]] :=
  ⟨⟨by decide, by decide⟩,
   lazy_seed_zero.1 ℤ ([[], [], [], []] : List (PathL ℤ)) [[]] ⟨3, 0, 7⟩
     (by decide) (by decide),
   lazy_seed_zero.2⟩

end EngineClaims

section MonotoneAligned

variable {W : Type} [AddZeroClass W] [LinearOrder W]

theorem relax_mono_step (prev cur : List (PathL W)) (e : Edge W) (v : Nat) :
    (relax prev cur e).2.getD v [] = cur.getD v [] ∨
    ((relax prev cur e).2.getD v [] ≠ [] ∧
     (cur.getD v [] ≠ [] →
       headWeight ((relax prev cur e).2.getD v []) <
         headWeight (cur.getD v []))) := by
  rw [relax_snd]
  by_cases hc : cur.getD e.toV [] = [] ∨
      headWeight (cur.getD e.toV []) > proposedTotal prev e
  · rw [if_pos hc]
    by_cases hv : v = e.toV
    · subst hv
      by_cases hrange : e.toV < cur.length
      · rw [getD_set_self _ _ _ _ hrange]
        refine Or.inr ⟨by simp, ?_⟩
        intro hne
        rcases hc with hc | hc
        · exact absurd hc hne
        · exact hc
      · rw [List.set_eq_of_length_le (by omega)]
        exact Or.inl rfl
    · exact Or.inl (getD_set_ne _ _ _ _ _ (fun a => hv a.symm))
  · rw [if_neg hc]
    exact Or.inl rfl

theorem relax_mono_fold :
    ∀ (edges : List (Edge W)) (prev cur : List (PathL W)) (v : Nat),
      cur.getD v [] ≠ [] →
      (edges.foldl relaxStep (prev, cur)).2.getD v [] ≠ [] ∧
      headWeight ((edges.foldl relaxStep (prev, cur)).2.getD v []) ≤
        headWeight (cur.getD v []) := by
  intro edges
  induction edges with
  | nil =>
    intro prev cur v hne
    exact ⟨hne, le_refl _⟩
  | cons e es ih =>
    intro prev cur v hne
    rw [List.foldl_cons]
    have hrs : relaxStep (prev, cur) e = relax prev cur e := rfl
    rw [hrs]
    rcases relax_mono_step prev cur e v with heq | ⟨hne2, hlt⟩
    · have hih := ih (relax prev cur e).1 (relax prev cur e).2 v
        (by rw [heq]; exact hne)
      exact ⟨hih.1, le_trans hih.2 (le_of_eq (by rw [heq]))⟩
    · have hih := ih (relax prev cur e).1 (relax prev cur e).2 v hne2
      exact ⟨hih.1, le_trans hih.2 (le_of_lt (hlt hne))⟩

/-- Claim C7: for a fixed vertex of the current layer, each relaxation
either leaves the stored path unchanged or stores a nonempty path that is
strictly cheaper than the previously stored one; consequently, across any
run of edge relaxations of the layer, a vertex that has a stored path
keeps one and its best-known weight never increases. -/
theorem layer_weight_monotone :
    (∀ (prev cur : List (PathL W)) (e : Edge W) (v : Nat),
      (relax prev cur e).2.getD v [] = cur.getD v [] ∨
      ((relax prev cur e).2.getD v [] ≠ [] ∧
       (cur.getD v [] ≠ [] →
         headWeight ((relax prev cur e).2.getD v []) <
           headWeight (cur.getD v [])))) ∧
    (∀ (edges : List (Edge W)) (prev cur : List (PathL W)) (v : Nat),
      cur.getD v [] ≠ [] →
      (edges.foldl relaxStep (prev, cur)).2.getD v [] ≠ [] ∧
      headWeight ((edges.foldl relaxStep (prev, cur)).2.getD v []) ≤
        headWeight (cur.getD v [])) :=
  ⟨fun prev cur e v => relax_mono_step prev cur e v,
   fun edges prev cur v hne => relax_mono_fold edges prev cur v hne⟩

theorem layer_weight_monotone_witness :
    ([[⟨5, 0⟩]] : List (PathL ℤ)).getD 0 [] ≠ [] ∧
    (([⟨0, 0, 3⟩, ⟨0, 0, 9⟩] : List (Edge ℤ)).foldl relaxStep
        ([[⟨1, 0⟩]], [[⟨5, 0⟩]])).2.getD 0 [] ≠ [] ∧
    headWeight ((([⟨0, 0, 3⟩, ⟨0, 0, 9⟩] : List (Edge ℤ)).foldl relaxStep
        ([[⟨1, 0⟩]], [[⟨5, 0⟩]])).2.getD 0 []) ≤
      headWeight (([[⟨5, 0⟩]] : List (PathL ℤ)).getD 0 []) :=
  ⟨by decide,
   ((layer_weight_monotone (W := ℤ)).2 [⟨0, 0, 3⟩, ⟨0, 0, 9⟩]
     [[⟨1, 0⟩]] [[⟨5, 0⟩]] 0 (by decide)).1,
   ((layer_weight_monotone (W := ℤ)).2 [⟨0, 0, 3⟩, ⟨0, 0, 9⟩]
     [[⟨1, 0⟩]] [[⟨5, 0⟩]] 0 (by decide)).2⟩

end MonotoneAligned

section AlignedClaims

variable {W : Type}

theorem getD_replicate {α : Type} :
    ∀ (n v : Nat) (d : α), (List.replicate n d).getD v d = d := by
  intro n
  induction n with
  | zero =>
    intro v d
    exact List.getD_eq_default _ _ (by simp)
  | succ n ih =>
    intro v d
    cases v with
    | zero => rfl
    | succ v2 => exact ih v2 d

theorem getD_take {α : Type} (l : List α) (n v : Nat) (d : α) (hv : v < n) :
    (l.take n).getD v d = l.getD v d := by
  by_cases h : v < l.length
  · have h1 : v < (l.take n).length := by
      rw [List.length_take]
      omega
    rw [List.getD_eq_getElem _ _ h1, List.getD_eq_getElem _ _ h]
    exact List.getElem_take _
  · have hlen : (l.take n).length ≤ v := by
      rw [List.length_take]
      omega
    rw [List.getD_eq_default _ _ hlen, List.getD_eq_default _ _ (by omega)]

theorem resizeTo_getD [AddZeroClass W] [LinearOrder W] (l : List (PathL W)) (n v : Nat) :
    (resizeTo l n).getD v [] = l.getD v [] ∨
    (resizeTo l n).getD v [] = ([] : PathL W) := by
  unfold resizeTo
  by_cases h1 : v < (l.take n).length
  · left
    rw [List.getD_append _ _ _ _ h1]
    rw [List.length_take] at h1
    exact getD_take l n v [] (by omega)
  · right
    by_cases h2 : v < (l.take n ++ List.replicate (n - l.length) ([] : PathL W)).length
    · rw [List.getD_append_right _ _ _ _ (by omega)]
      exact getD_replicate _ _ _
    · exact List.getD_eq_default _ _ (by omega)

theorem aligned_nil : Aligned ([] : List (PathL W)) := by
  intro v x rest h
  rw [List.getD_eq_default _ _ (by simp)] at h
  exact absurd h (by simp)

theorem aligned_replicate (n : Nat) :
    Aligned (List.replicate n ([] : PathL W)) := by
  intro v x rest h
  rw [getD_replicate] at h
  exact absurd h (by simp)

theorem aligned_set {l : List (PathL W)} (hal : Aligned l) (i : Nat)
    (x : VertexState W) (tl : PathL W) (hx : x.vertex = i) :
    Aligned (l.set i (x :: tl)) := by
  intro v y rest h
  by_cases hvi : v = i
  · subst hvi
    by_cases hr : v < l.length
    · rw [getD_set_self _ _ _ _ hr] at h
      cases h
      exact hx
    · rw [List.set_eq_of_length_le (by omega)] at h
      exact hal v y rest h
  · rw [getD_set_ne _ _ _ _ _ (fun a => hvi a.symm)] at h
    exact hal v y rest h

theorem aligned_seedPrev [AddZeroClass W] [LinearOrder W]
    {prev : List (PathL W)} (hal : Aligned prev) (e : Edge W) : Aligned (seedPrev prev e) := by
  unfold seedPrev
  by_cases hemp : prev.getD e.frm [] = []
  · rw [if_pos hemp]
    exact aligned_set hal e.frm ⟨0, e.frm⟩ [] rfl
  · rw [if_neg hemp]
    exact hal

theorem aligned_relax [AddZeroClass W] [LinearOrder W]
    {prev cur : List (PathL W)} (hp : Aligned prev)
    (hc : Aligned cur) (e : Edge W) :
    Aligned (relax prev cur e).1 ∧ Aligned (relax prev cur e).2 := by
  constructor
  · rw [relax_fst]
    exact aligned_seedPrev hp e
  · rw [relax_snd]
    by_cases hcond : cur.getD e.toV [] = [] ∨
        headWeight (cur.getD e.toV []) > proposedTotal prev e
    · rw [if_pos hcond]
      exact aligned_set hc e.toV ⟨proposedTotal prev e, e.toV⟩ _ rfl
    · rw [if_neg hcond]
      exact hc

theorem aligned_fold [AddZeroClass W] [LinearOrder W] :
    ∀ (edges : List (Edge W)) (prev cur : List (PathL W)),
      Aligned prev → Aligned cur →
      Aligned (edges.foldl relaxStep (prev, cur)).1 ∧
      Aligned (edges.foldl relaxStep (prev, cur)).2 := by
  intro edges
  induction edges with
  | nil =>
    intro prev cur hp hc
    exact ⟨hp, hc⟩
  | cons e es ih =>
    intro prev cur hp hc
    rw [List.foldl_cons]
    have hrs : relaxStep (prev, cur) e = relax prev cur e := rfl
    rw [hrs]
    obtain ⟨h1, h2⟩ := aligned_relax hp hc e
    exact ih (relax prev cur e).1 (relax prev cur e).2 h1 h2

theorem aligned_resize [AddZeroClass W] [LinearOrder W]
    {l : List (PathL W)} (hal : Aligned l) (n : Nat) :
    Aligned (resizeTo l n) := by
  intro v x rest h
  rcases resizeTo_getD l n v with h2 | h2
  · rw [h2] at h
    exact hal v x rest h
  · rw [h2] at h
    exact absurd h (by simp)

theorem aligned_processLayer [AddZeroClass W] [LinearOrder W]
    {prev : List (PathL W)} (hal : Aligned prev)
    (edges : List (Edge W)) : Aligned (processLayer prev edges) := by
  unfold processLayer
  exact (aligned_fold edges _ _ (aligned_resize hal (prevCount edges))
    (aligned_replicate (curCount edges))).2

theorem aligned_runLayers [AddZeroClass W] [LinearOrder W]
    (layers : List (List (Edge W))) :
    Aligned (runLayers layers) := by
  unfold runLayers
  have main : ∀ (ls : List (List (Edge W))) (acc : List (PathL W)),
      Aligned acc → Aligned (ls.foldl processLayer acc) := by
    intro ls
    induction ls with
    | nil => exact fun acc h => h
    | cons l ls2 ih =>
      intro acc h
      rw [List.foldl_cons]
      exact ih (processLayer acc l) (aligned_processLayer h l)
  exact main layers [] aligned_nil

/-- Claim C9: at every point of a layer's processing the path-state
arrays stay aligned: a nonempty current-layer slot at index v holds a
path whose front vertex is v, the lazily seeded previous-layer slot at
the edge source holds the single weight-zero node of that vertex, the
alignment is preserved by each relaxation and by any run of them, and
the array produced for the final layer is aligned. -/
theorem slot_vertex_aligned [AddZeroClass W] [LinearOrder W] :
    (∀ (prev cur : List (PathL W)) (e : Edge W),
      Aligned prev → Aligned cur →
        Aligned (relax prev cur e).1 ∧ Aligned (relax prev cur e).2 ∧
        (prev.getD e.frm [] = [] → e.frm < prev.length →
          (relax prev cur e).1.getD e.frm [] = [⟨0, e.frm⟩])) ∧
    (∀ (edges : List (Edge W)) (prev cur : List (PathL W)),
      Aligned prev → Aligned cur →
        Aligned (edges.foldl relaxStep (prev, cur)).1 ∧
        Aligned (edges.foldl relaxStep (prev, cur)).2) ∧
    (∀ layers : List (List (Edge W)), Aligned (runLayers layers)) :=
  ⟨fun prev cur e hp hc =>
    ⟨(aligned_relax hp hc e).1, (aligned_relax hp hc e).2,
     fun hemp hfrm => seeded_slot prev cur e hemp hfrm⟩,
   fun edges prev cur hp hc => aligned_fold edges prev cur hp hc,
   fun layers => aligned_runLayers layers⟩

theorem slot_vertex_aligned_witness :
    Aligned ([[], [], [], []] : List (PathL ℤ)) ∧
    Aligned ([[]] : List (PathL ℤ)) ∧
    Aligned (relax ([[], [], [], []] : List (PathL ℤ)) [[]] ⟨3, 0, 7⟩).1 ∧
    Aligned (relax ([[], [], [], []] : List (PathL ℤ)) [[]] ⟨3, 0, 7⟩).2 ∧
    Aligned (runLayers [[(⟨3, 0, 7⟩ : Edge ℤ)]]) := by
  have h1 : Aligned ([[], [], [], []] : List (PathL ℤ)) := by
    intro v x rest h
    exfalso
    revert h
    match v with
    | 0 => simp
    | 1 => simp
    | 2 => simp
    | 3 => simp
    | n + 4 =>
      rw [List.getD_eq_default _ _ (by simp)]
      simp
  have h2 : Aligned ([[]] : List (PathL ℤ)) := by
    intro v x rest h
    exfalso
    revert h
    match v with
    | 0 => simp
    | n + 1 =>
      rw [List.getD_eq_default _ _ (by simp)]
      simp
  refine ⟨h1, h2, ?_, ?_, ?_⟩
  · exact ((slot_vertex_aligned (W := ℤ)).1 _ _ ⟨3, 0, 7⟩ h1 h2).1
  · exact ((slot_vertex_aligned (W := ℤ)).1 _ _ ⟨3, 0, 7⟩ h1 h2).2.1
  · exact (slot_vertex_aligned (W := ℤ)).2.2 [[⟨3, 0, 7⟩]]

end AlignedClaims

section FinalizeClaims

variable {W : Type} [AddZeroClass W] [LinearOrder W]

theorem pathLe_iff {a b : PathL W} :
    pathLe a b ↔ b = [] ∨ (a ≠ [] ∧ headWeight a ≤ headWeight b) := by
  unfold pathLe byTotalWeight
  by_cases hb : b = []
  · simp [hb]
  · by_cases ha : a = []
    · simp [ha, hb]
    · simp [ha, hb, not_lt]


/-- On a list sorted by the comparator, the prefix of minimum-weight
nonempty paths is exactly the set of them: nothing of minimum weight can
hide behind an empty or heavier entry. -/
theorem takeWhile_eq_filter_min (m : W) :
    ∀ (l : List (PathL W)), l.Pairwise pathLe →
      (∀ x ∈ l, x ≠ [] → m ≤ headWeight x) →
      l.takeWhile (fun x => decide (x ≠ []) && decide (headWeight x = m)) =
        l.filter (fun x => decide (x ≠ []) && decide (headWeight x = m)) := by
  intro l
  induction l with
  | nil => intro _ _; rfl
  | cons a t ih =>
    intro hpw hmin
    have hpw2 := List.pairwise_cons.mp hpw
    by_cases hpa : (decide (a ≠ []) && decide (headWeight a = m)) = true
    · have hpa1 : (fun x => decide (x ≠ []) && decide (headWeight x = m)) a =
          true := hpa
      rw [@List.takeWhile_cons_of_pos (PathL W)
          (fun x => decide (x ≠ []) && decide (headWeight x = m)) a t hpa1,
        @List.filter_cons_of_pos (PathL W)
          (fun x => decide (x ≠ []) && decide (headWeight x = m)) a t hpa1]
      congr 1
      exact ih hpw2.2 (fun x hx => hmin x (List.mem_cons_of_mem _ hx))
    · have hpa1 : ¬((fun x => decide (x ≠ []) && decide (headWeight x = m)) a =
          true) := hpa
      rw [@List.takeWhile_cons_of_neg (PathL W)
          (fun x => decide (x ≠ []) && decide (headWeight x = m)) a t hpa1,
        @List.filter_cons_of_neg (PathL W)
          (fun x => decide (x ≠ []) && decide (headWeight x = m)) a t hpa1]
      symm
      rw [List.filter_eq_nil_iff]
      intro x hx hpx
      simp only [Bool.and_eq_true, decide_eq_true_eq] at hpx hpa
      obtain ⟨hxne, hxw⟩ := hpx
      have hax := hpw2.1 x hx
      rw [pathLe_iff] at hax
      rcases hax with hx0 | ⟨hane, haw⟩
      · exact hxne hx0
      · have hwa_ne : headWeight a ≠ m := fun hc => hpa ⟨hane, hc⟩
        have hmle := hmin a (List.mem_cons_self _ _) hane
        rw [hxw] at haw
        exact hwa_ne (le_antisymm haw hmle)

/-- Claim C2: finalization fails (NoReachableVertex, no partial result)
exactly when no last-layer vertex carries a path, in particular for zero
layers; otherwise it returns, each exactly once, precisely the nonempty
paths whose head weight equals the minimum over all reached last-layer
vertices, with no empty entry and no heavier path included. -/
theorem finalize_min_weight (prev : List (PathL W)) :
    (finalize prev = none ↔ ∀ l ∈ prev, l = []) ∧
    (∀ res, finalize prev = some res →
      ∃ m : W,
        (∃ l ∈ prev, l ≠ [] ∧ headWeight l = m) ∧
        (∀ l ∈ prev, l ≠ [] → m ≤ headWeight l) ∧
        (∀ l ∈ res, l ≠ [] ∧ headWeight l = m) ∧
        List.Perm res (prev.filter
          (fun l => decide (l ≠ []) && decide (headWeight l = m)))) ∧
    cheapest_paths ([] : List (List (Edge W))) = none := by
  have hperm : (List.insertionSort pathLe prev).Perm prev :=
    List.perm_insertionSort _ _
  have hsor : (List.insertionSort pathLe prev).Sorted pathLe :=
    List.sorted_insertionSort _ _
  cases hs : List.insertionSort pathLe prev with
  | nil =>
    have hprev : prev = [] := by
      rw [hs] at hperm
      exact hperm.symm.eq_nil
    subst hprev
    have hnone : finalize ([] : List (PathL W)) = none := rfl
    refine ⟨iff_of_true hnone (by simp), ?_, rfl⟩
    intro res hres
    rw [hnone] at hres
    exact absurd hres (by simp)
  | cons hd tl =>
    cases hd with
    | nil =>
      have hall : ∀ l ∈ prev, l = [] := by
        intro l hl
        have hls : l ∈ ([] : PathL W) :: tl := by
          rw [← hs]
          exact (hperm.mem_iff).mpr hl
        rcases List.mem_cons.mp hls with h1 | h1
        · exact h1
        · rw [hs] at hsor
          have h2 := (List.sorted_cons.mp hsor).1 l h1
          rw [pathLe_iff] at h2
          rcases h2 with h2 | ⟨h2, _⟩
          · exact h2
          · exact absurd rfl h2
      have hnone : finalize prev = none := by
        unfold finalize
        rw [hs]
      refine ⟨iff_of_true hnone hall, ?_, rfl⟩
      intro res hres
      rw [hnone] at hres
      exact absurd hres (by simp)
    | cons v p =>
      have hfin : finalize prev =
          some (((v :: p) :: tl).takeWhile
            (fun l => decide (l ≠ []) &&
              decide (headWeight l = v.least_total_weight_to_here))) := by
        unfold finalize
        rw [hs]
      have hvp_mem : (v :: p) ∈ prev := by
        rw [← hperm.mem_iff, hs]
        exact List.mem_cons_self _ _
      have hminS : ∀ l ∈ (v :: p) :: tl, l ≠ [] →
          v.least_total_weight_to_here ≤ headWeight l := by
        intro l hl hne
        rcases List.mem_cons.mp hl with h1 | h1
        · subst h1
          exact le_refl _
        · rw [hs] at hsor
          have h2 := (List.sorted_cons.mp hsor).1 l h1
          rw [pathLe_iff] at h2
          rcases h2 with h2 | ⟨_, h2⟩
          · exact absurd h2 hne
          · exact h2
      have hsome : finalize prev ≠ none := by
        rw [hfin]
        simp
      refine ⟨?_, ?_, rfl⟩
      · refine iff_of_false hsome ?_
        intro hall
        exact absurd (hall (v :: p) hvp_mem) (by simp)
      · intro res hres
        rw [hfin] at hres
        have hres2 : res = ((v :: p) :: tl).takeWhile
            (fun l => decide (l ≠ []) &&
              decide (headWeight l = v.least_total_weight_to_here)) :=
          ((Option.some.injEq _ _).mp hres).symm
        refine ⟨v.least_total_weight_to_here,
          ⟨v :: p, hvp_mem, by simp, rfl⟩, ?_, ?_, ?_⟩
        · intro l hl hne
          refine hminS l ?_ hne
          rw [← hs]
          exact (hperm.mem_iff).mpr hl
        · intro l hl
          rw [hres2, takeWhile_eq_filter_min _ _
            (by rw [hs] at hsor; exact hsor) hminS] at hl
          have h3 := (List.mem_filter.mp hl).2
          simp only [Bool.and_eq_true, decide_eq_true_eq] at h3
          exact h3
        · rw [hres2, takeWhile_eq_filter_min _ _
            (by rw [hs] at hsor; exact hsor) hminS]
          have hpf : ((v :: p) :: tl).Perm prev := by
            rw [← hs]
            exact hperm
          exact hpf.filter _

end FinalizeClaims

theorem finalize_min_weight_witness :
    (finalize ([[⟨5, 0⟩], [], [⟨5, 1⟩], [⟨6, 2⟩]] : List (PathL ℤ)) = none ↔
      ∀ l ∈ ([[⟨5, 0⟩], [], [⟨5, 1⟩], [⟨6, 2⟩]] : List (PathL ℤ)), l = []) ∧
    cheapest_paths ([] : List (List (Edge ℤ))) = none ∧
    (∃ m : ℤ,
      (∃ l ∈ ([[⟨5, 0⟩], [], [⟨5, 1⟩], [⟨6, 2⟩]] : List (PathL ℤ)),
        l ≠ [] ∧ headWeight l = m) ∧
      (∀ l ∈ ([[⟨5, 0⟩], [], [⟨5, 1⟩], [⟨6, 2⟩]] : List (PathL ℤ)),
        l ≠ [] → m ≤ headWeight l) ∧
      (∀ l ∈ [[(⟨5, 0⟩ : VertexState ℤ)], [⟨5, 1⟩]],
        l ≠ [] ∧ headWeight l = m) ∧
      List.Perm [[(⟨5, 0⟩ : VertexState ℤ)], [⟨5, 1⟩]]
        (([[⟨5, 0⟩], [], [⟨5, 1⟩], [⟨6, 2⟩]] : List (PathL ℤ)).filter
          (fun l => decide (l ≠ []) && decide (headWeight l = m)))) :=
  ⟨(finalize_min_weight ([[⟨5, 0⟩], [], [⟨5, 1⟩], [⟨6, 2⟩]] :
      List (PathL ℤ))).1,
   (finalize_min_weight ([] : List (PathL ℤ))).2.2,
   (finalize_min_weight ([[⟨5, 0⟩], [], [⟨5, 1⟩], [⟨6, 2⟩]] :
      List (PathL ℤ))).2.1 [[⟨5, 0⟩], [⟨5, 1⟩]] (by decide)⟩
